import Mathlib

/-!
Verification development for the short-video assembly pipeline
(`main.py`, `subtitle_video.py`).

Conventions of the embedding:
* Audio clips are represented by their intrinsic duration in integer
  milliseconds (pydub's `AudioSegment` length unit); a clip obtained from a
  fallback / empty synthesis result is a clip of duration 0.
* Python floats produced by `/ 1000.0` are modelled as exact rationals.
* Text is `List Char`; Python string functions from the standard library
  (`str.split`, `str.strip`, `textwrap`) are embedded following the CPython
  implementation, with the Unicode character classes restricted to the
  character ranges this pipeline handles (ASCII, kana, han, Hangul).
-/

namespace AutoShort

/-! ### Timeline builder: `_concat_with_gaps` (main.py)

```
def _concat_with_gaps(audio_paths, gap_ms=120, pre_ms=120, min_ms=1000):
    combined = AudioSegment.silent(duration=0)
    durs = []
    for idx, p in enumerate(audio_paths):
        seg = AudioSegment.from_file(p)
        seg = AudioSegment.silent(duration=pre_ms) + seg
        if len(seg) < min_ms:
            seg += AudioSegment.silent(duration=min_ms - len(seg))
        seg_ms = len(seg)
        extra = gap_ms if idx < len(audio_paths) - 1 else 0
        combined += seg
        if extra:
            combined += AudioSegment.silent(duration=extra)
        durs.append((seg_ms + extra) / 1000.0)
    ...
    return durs
```
-/

/-- Length in ms of one padded segment: leading silence prepended, then
trailing silence appended when the result is still below `minMs`. -/
def segLen (preMs minMs clipLen : ℕ) : ℕ :=
  let s := preMs + clipLen
  if s < minMs then s + (minMs - s) else s

/-- One pass over the clips, carrying the running index.  Returns the `durs`
list (seconds, as rationals) and the length in ms of the `combined` track,
both tracked exactly as the Python loop tracks them. -/
def concatGo (gapMs preMs minMs n : ℕ) : ℕ → List ℕ → List ℚ × ℕ
  | _, [] => ([], 0)
  | idx, c :: rest =>
    let segMs := segLen preMs minMs c
    let extra := if idx < n - 1 then gapMs else 0
    let pr := concatGo gapMs preMs minMs n (idx + 1) rest
    (((segMs + extra : ℕ) : ℚ) / 1000 :: pr.1, segMs + extra + pr.2)

/-- `_concat_with_gaps`: the slot-duration list it returns together with the
total length of the audio track it builds. -/
def concatWithGaps (clips : List ℕ) (gapMs preMs minMs : ℕ) : List ℚ × ℕ :=
  concatGo gapMs preMs minMs clips.length 0 clips

/-! ### Character classes (environment model)

Python's `str` machinery (`str.split`, `str.strip`, `textwrap`, `re`) is
embedded below following the CPython implementation.  The Unicode character
classes (`\s`, `\w`, letters) are modelled on the character ranges this
pipeline actually handles: ASCII, kana, han ideographs, Hangul. -/

/-- Python `str.isspace` / regex `\s`. -/
def isPyWS (c : Char) : Bool :=
  decide (c.toNat = 32 ∨ c.toNat = 9 ∨ c.toNat = 10 ∨ c.toNat = 13 ∨
    c.toNat = 11 ∨ c.toNat = 12 ∨ c.toNat = 28 ∨ c.toNat = 29 ∨ c.toNat = 30 ∨
    c.toNat = 31 ∨ c.toNat = 133 ∨ c.toNat = 160 ∨ c.toNat = 5760 ∨
    (8192 ≤ c.toNat ∧ c.toNat ≤ 8202) ∨ c.toNat = 8232 ∨ c.toNat = 8233 ∨
    c.toNat = 8239 ∨ c.toNat = 8287 ∨ c.toNat = 12288)

/-- Unicode letter (regex `[^\d\W]`), restricted to the scripts in use:
ASCII letters, kana, han ideographs, Hangul jamo / syllables. -/
def isPyLetter (c : Char) : Bool :=
  decide ((65 ≤ c.toNat ∧ c.toNat ≤ 90) ∨ (97 ≤ c.toNat ∧ c.toNat ≤ 122) ∨
    (0x3040 ≤ c.toNat ∧ c.toNat ≤ 0x30ff) ∨ (0x4e00 ≤ c.toNat ∧ c.toNat ≤ 0x9fff) ∨
    (0x1100 ≤ c.toNat ∧ c.toNat ≤ 0x11ff) ∨ (0x3130 ≤ c.toNat ∧ c.toNat ≤ 0x318f) ∨
    (0xa960 ≤ c.toNat ∧ c.toNat ≤ 0xa97f) ∨ (0xac00 ≤ c.toNat ∧ c.toNat ≤ 0xd7a3) ∨
    (0xd7b0 ≤ c.toNat ∧ c.toNat ≤ 0xd7ff))

def isPyDigit (c : Char) : Bool :=
  decide (48 ≤ c.toNat ∧ c.toNat ≤ 57)

/-- Regex `\w`. -/
def isPyWordChar (c : Char) : Bool :=
  isPyLetter c || isPyDigit c || c == '_'

/-- `textwrap`'s word-punctuation class. -/
def isWordPunct (c : Char) : Bool :=
  isPyWordChar c || c == '!' || c == '"' || c == '\'' || c == '&' ||
    c == '.' || c == ',' || c == '?'

/-- A Hangul code point (jamo, compatibility jamo, syllables, extensions). -/
def isHangulCp (c : Char) : Bool :=
  decide ((0x1100 ≤ c.toNat ∧ c.toNat ≤ 0x11ff) ∨
    (0x3130 ≤ c.toNat ∧ c.toNat ≤ 0x318f) ∨
    (0xa960 ≤ c.toNat ∧ c.toNat ≤ 0xa97f) ∨
    (0xac00 ≤ c.toNat ∧ c.toNat ≤ 0xd7a3) ∨
    (0xd7b0 ≤ c.toNat ∧ c.toNat ≤ 0xd7ff))

/-- `_ASCII_RE = re.compile(r'^[\x20-\x7E]+$')` fully matching a token. -/
def isVisibleAscii (t : List Char) : Bool :=
  !t.isEmpty && t.all (fun c => decide (32 ≤ c.toNat ∧ c.toNat ≤ 126))

/-- The character test of `re.search(r"[぀-ヿ一-鿿]", text)`
used by `wrap_cjk` and `_prep_line` (kana and han only — no Hangul). -/
def isCjkRegexChar (c : Char) : Bool :=
  decide ((0x3040 ≤ c.toNat ∧ c.toNat ≤ 0x30ff) ∨
    (0x4e00 ≤ c.toNat ∧ c.toNat ≤ 0x9fff))

def hasCjkRegex (l : List Char) : Bool := l.any isCjkRegexChar

/-! ### Python string helpers -/

/-- `str.strip()`. -/
def pyStrip (l : List Char) : List Char :=
  ((l.dropWhile isPyWS).reverse.dropWhile isPyWS).reverse

/-- Worker for `str.split()` (no argument): split on whitespace runs,
dropping empties.  `cur` holds the current word reversed. -/
def pySplitGo (cur : List Char) : List Char → List (List Char)
  | [] => if cur.isEmpty then [] else [cur.reverse]
  | c :: rest =>
    if isPyWS c then
      if cur.isEmpty then pySplitGo [] rest else cur.reverse :: pySplitGo [] rest
    else pySplitGo (c :: cur) rest

def pySplit (l : List Char) : List (List Char) := pySplitGo [] l

/-- `sep.join(pieces)`. -/
def joinSep (sep : List Char) : List (List Char) → List Char
  | [] => []
  | [x] => x
  | x :: y :: rest => x ++ sep ++ joinSep sep (y :: rest)

/-- Split a string into lines at `'\n'` (Python `str.split("\n")`). -/
def linesOfGo (cur : List Char) : List Char → List (List Char)
  | [] => [cur.reverse]
  | c :: rest =>
    if c = '\n' then cur.reverse :: linesOfGo [] rest
    else linesOfGo (c :: cur) rest

def linesOf (s : List Char) : List (List Char) := linesOfGo [] s

/-! ### `_split_long_token` (subtitle_video.py)

```
def _split_long_token(tok: str, limit: int) -> list[str]:
    if len(tok) <= limit:
        return [tok]
    parts = re.split of tok on the class of the two separators, keeping them
    merged, cur = [], ""
    for p in parts:
        if p is a substring of the separator pair:
            cur += p
            continue
        if not p:
            continue
        while len(p) > 0:
            take = limit - len(cur)
            if take <= 0:
                merged.append(cur); cur = ""
                take = limit
            seg, p = p[:take], p[take:]
            cur += seg
            if len(cur) >= limit:
                merged.append(cur); cur = ""
    if cur:
        merged.append(cur)
    return merged
```
-/

/-- `re.split` of `tok` on `'-'` and `'/'`: pieces with the single-char separators kept
as their own elements (empty pieces included, as in Python). -/
def splitKeepSepGo (acc : List Char) : List Char → List (List Char)
  | [] => [acc.reverse]
  | c :: rest =>
    if c = '-' ∨ c = '/' then acc.reverse :: [c] :: splitKeepSepGo [] rest
    else splitKeepSepGo (c :: acc) rest

/-- The `while len(p) > 0` loop of `_split_long_token`.  With `limit = 0`
the Python loop diverges; the fuel fallback keeps every character. -/
def sltLoop (limit : ℕ) : ℕ → List (List Char) → List Char → List Char →
    List (List Char) × List Char
  | 0, merged, cur, p => (merged, cur ++ p)
  | fuel + 1, merged, cur, p =>
    match p with
    | [] => (merged, cur)
    | _ :: _ =>
      let flush := limit ≤ cur.length
      let merged1 := if flush then merged ++ [cur] else merged
      let cur1 := if flush then [] else cur
      let tk := if flush then limit else limit - cur.length
      let seg := p.take tk
      let p2 := p.drop tk
      let cur2 := cur1 ++ seg
      if limit ≤ cur2.length then sltLoop limit fuel (merged1 ++ [cur2]) [] p2
      else sltLoop limit fuel merged1 cur2 p2

/-- The `for p in parts` loop of `_split_long_token`.  Note that in Python
the `p in` separator test is a substring test, so the empty piece also takes the
separator branch. -/
def sltParts (limit : ℕ) : List (List Char) → List (List Char) → List Char →
    List (List Char) × List Char
  | [], merged, cur => (merged, cur)
  | p :: rest, merged, cur =>
    if p = ['-'] ∨ p = ['/'] ∨ p = [] then sltParts limit rest merged (cur ++ p)
    else
      let pr := sltLoop limit (p.length + 1) merged cur p
      sltParts limit rest pr.1 pr.2

def splitLongToken (tok : List Char) (limit : ℕ) : List (List Char) :=
  if tok.length ≤ limit then [tok]
  else
    let pr := sltParts limit (splitKeepSepGo [] tok) [] []
    if pr.2.isEmpty then pr.1 else pr.1 ++ [pr.2]

/-! ### CPython `textwrap` model

`wrap_ascii_hard` ends in `textwrap.fill(..., width=cols,
break_long_words=True, break_on_hyphens=True)` and `wrap_cjk` uses
`textwrap.wrap(text, width, break_long_words=True)`; all other `TextWrapper`
options keep their defaults (`expand_tabs=True`, `replace_whitespace=True`,
`drop_whitespace=True`, `break_on_hyphens=True`, empty indents,
`max_lines=None`).  The functions below follow `Lib/textwrap.py`. -/

/-- `str.expandtabs(8)`, tracking the column as CPython does
(reset on `'\n'` / `'\r'`). -/
def expandTabs : List Char → ℕ → List Char
  | [], _ => []
  | c :: rest, col =>
    if c = '\t' then
      let incr := 8 - col % 8
      List.replicate incr ' ' ++ expandTabs rest (col + incr)
    else if c = '\n' ∨ c = '\r' then c :: expandTabs rest 0
    else c :: expandTabs rest (col + 1)

/-- `TextWrapper._munge_whitespace`: expand tabs, then translate
`'\t' '\n' '\x0b' '\x0c' '\r' ' '` to `' '`. -/
def mungeWS (s : List Char) : List Char :=
  (expandTabs s 0).map (fun c =>
    if c = '\t' ∨ c = '\n' ∨ c.toNat = 11 ∨ c.toNat = 12 ∨ c = '\r' ∨ c = ' '
    then ' ' else c)

/-- Keep the most recent (up to four) characters, most recent first: the
lookbehind window of `wordsep_re`. -/
def pushCtx (ctx chunk : List Char) : List Char :=
  (chunk.reverse ++ ctx).take 4

def optIs (p : Char → Bool) : Option Char → Bool
  | some c => p c
  | none => false

def optEq (o : Option Char) (c : Char) : Bool :=
  match o with
  | some d => d == c
  | none => false

/-- Lookahead `(?= lt -? lt)` of the hyphenated-word branch. -/
def laLtHyphLt : List Char → Bool
  | a :: b :: rest =>
    isPyLetter a && (isPyLetter b || (b == '-' && optIs isPyLetter rest.head?))
  | _ => false

/-- Lookahead `(?= -{2,} \w)` of the em-dash branches. -/
def laEmDash (l : List Char) : Bool :=
  let run := l.takeWhile (fun c => c == '-')
  decide (2 ≤ run.length) && optIs isPyWordChar (l.drop run.length).head?

/-- End-of-word test of `wordsep_re`'s lazy word branch, given the four
preceding characters (`ctx`, most recent first) and the unconsumed rest:
end of word / hyphen break with its lookbehinds / em-dash ahead. -/
def wordEnd (ctx rest : List Char) : Bool :=
  (match rest with
   | [] => true
   | c :: _ => isPyWS c) ||
  (optEq (ctx.get? 0) '-' &&
    ((optIs isPyLetter (ctx.get? 1) && optIs isPyLetter (ctx.get? 2)) ||
     (optIs isPyLetter (ctx.get? 1) && optEq (ctx.get? 2) '-' &&
       optIs isPyLetter (ctx.get? 3))) &&
    laLtHyphLt rest) ||
  (optIs isWordPunct (ctx.get? 0) && laEmDash rest)

/-- Consume one word chunk (regex `\S+?` with `wordEnd` as its exit),
keeping the invariant `accRev.reverse ++ rest = whole input`. -/
def wordChunkGo : ℕ → List Char → List Char → List Char → List Char × List Char
  | 0, _, accRev, rest => (accRev.reverse, rest)
  | fuel + 1, ctx, accRev, rest =>
    if wordEnd ctx rest then (accRev.reverse, rest)
    else
      match rest with
      | [] => (accRev.reverse, [])
      | c :: rest2 => wordChunkGo fuel (pushCtx ctx [c]) (c :: accRev) rest2

/-- `TextWrapper._split` with `break_on_hyphens=True`: tile the text with
whitespace runs, em-dash runs and (possibly hyphen-terminated) word chunks.
`ctx` is the lookbehind window. -/
def chunkSplitGo : ℕ → List Char → List Char → List (List Char)
  | 0, _, l => if l.isEmpty then [] else [l]
  | _ + 1, _, [] => []
  | fuel + 1, ctx, c :: rest =>
    if isPyWS c then
      let run := (c :: rest).takeWhile isPyWS
      let rest2 := (c :: rest).dropWhile isPyWS
      run :: chunkSplitGo fuel (pushCtx ctx run) rest2
    else if optIs isWordPunct (ctx.get? 0) && c == '-' && laEmDash (c :: rest) then
      let run := (c :: rest).takeWhile (fun d => d == '-')
      let rest2 := (c :: rest).dropWhile (fun d => d == '-')
      run :: chunkSplitGo fuel (pushCtx ctx run) rest2
    else
      let pr := wordChunkGo rest.length (pushCtx ctx [c]) [c] rest
      pr.1 :: chunkSplitGo fuel (pushCtx ctx pr.1) pr.2

def chunkSplit (l : List Char) : List (List Char) :=
  chunkSplitGo (l.length + 1) [] l

def sumLen (l : List (List Char)) : ℕ := (l.map List.length).sum

/-- `chunk.rfind('-', 0, stop)` as an `Option` index. -/
def rfindHyphenIdx (chunk : List Char) (stop : ℕ) : Option ℕ :=
  let t := chunk.take stop
  match t.reverse.findIdx? (fun c => c == '-') with
  | some k => some (t.length - 1 - k)
  | none => none

/-- `TextWrapper._handle_long_word` with `break_long_words=True` and
`break_on_hyphens=True`: returns the slice moved onto the current line and
the remainder of the chunk. -/
def handleLongWord (width curLen : ℕ) (chunk : List Char) : List Char × List Char :=
  let spaceLeft := if width < 1 then 1 else width - curLen
  let endIdx :=
    if spaceLeft < chunk.length then
      match rfindHyphenIdx chunk spaceLeft with
      | some h =>
        if decide (0 < h) && (chunk.take h).any (fun c => !(c == '-'))
        then h + 1 else spaceLeft
      | none => spaceLeft
    else spaceLeft
  (chunk.take endIdx, chunk.drop endIdx)

/-- The inner greedy loop of `_wrap_chunks`: take chunks while they fit. -/
def greedyTake (width : ℕ) : ℕ → List (List Char) → List (List Char) × List (List Char)
  | _, [] => ([], [])
  | curLen, ch :: rest =>
    if curLen + ch.length ≤ width then
      let pr := greedyTake width (curLen + ch.length) rest
      (ch :: pr.1, pr.2)
    else ([], ch :: rest)

/-- `chunk.strip() == ''`. -/
def isWSChunk (ch : List Char) : Bool := ch.all isPyWS

/-- `TextWrapper._wrap_chunks` (empty indents, `max_lines=None`,
`drop_whitespace=True`): one outer-loop iteration per recursive step.
`first` records whether no line has been emitted yet.  The fuel fallback
flushes everything into one line; it is unreachable for the fuel supplied
by `pyWrapText`. -/
def wrapChunksGo : ℕ → Bool → ℕ → List (List Char) → List (List Char)
  | 0, _, _, chunks => if chunks.isEmpty then [] else [chunks.flatten]
  | fuel + 1, first, width, chunks =>
    match chunks with
    | [] => []
    | ch0 :: rest0 =>
      let chunks1 := if !first && isWSChunk ch0 then rest0 else ch0 :: rest0
      match chunks1 with
      | [] => []
      | _ :: _ =>
        let pr := greedyTake width 0 chunks1
        let pr2 : List (List Char) × List (List Char) :=
          match pr.2 with
          | [] => (pr.1, [])
          | ch :: rt =>
            if width < ch.length then
              let hw := handleLongWord width (sumLen pr.1) ch
              (pr.1 ++ [hw.1], hw.2 :: rt)
            else (pr.1, ch :: rt)
        let curLine :=
          match pr2.1.getLast? with
          | some lc => if isWSChunk lc then pr2.1.dropLast else pr2.1
          | none => pr2.1
        if curLine.isEmpty then wrapChunksGo fuel first width pr2.2
        else curLine.flatten :: wrapChunksGo fuel false width pr2.2

/-- `textwrap.wrap(s, width, break_long_words=True, break_on_hyphens=True)`:
munge whitespace, split into chunks, wrap greedily. -/
def pyWrapText (width : ℕ) (s : List Char) : List (List Char) :=
  let chunks := chunkSplit (mungeWS s)
  wrapChunksGo (sumLen chunks + chunks.length + 1) true width chunks

/-- `textwrap.fill(s, width, ...)` = `"\n".join(wrap(...))`. -/
def pyFill (s : List Char) (width : ℕ) : List Char :=
  joinSep ['\n'] (pyWrapText width s)

/-! ### The wrappers of subtitle_video.py -/

/-- `wrap_ascii_hard(text, cols)`: hard-split over-budget all-ASCII tokens,
rejoin with single spaces, then `textwrap.fill`. -/
def wrapAsciiHard (text : List Char) (cols : ℕ) : List Char :=
  let toks := pySplit text
  let fixed := (toks.map (fun t =>
    if cols < t.length && isVisibleAscii t then splitLongToken t cols
    else [t])).flatten
  pyFill (joinSep [' '] fixed) cols

/-- `wrap_cjk(text, width)`: fixed-character-count wrapping, applied only
when the text contains kana or han code points. -/
def wrapCjk (text : List Char) (width : ℕ) : List Char :=
  if hasCjkRegex text then joinSep ['\n'] (pyWrapText width text)
  else text

/-- `max(8, int(TEXT_W / (font_size * 0.58)))` with `TEXT_W = 880`;
the float quotient is modelled exactly as `88000 / (font_size * 58)`. -/
def approxCols (fontSize : ℕ) : ℕ := max 8 (88000 / (fontSize * 58))

/-- `_prep_line(text, font_size, cjk_width)`. -/
def prepLine (text : List Char) (fontSize cjkWidth : ℕ) : List Char :=
  let t := pyStrip text
  if t.isEmpty then t
  else if hasCjkRegex t then wrapCjk t cjkWidth
  else wrapAsciiHard t (approxCols fontSize)

/-- Formalisation of the spec's `strip_linebreaks`: concatenate the wrapped
lines, discarding the inserted line breaks. -/
def stripLinebreaks (l : List Char) : List Char := l.filter (fun c => !(c == '\n'))

/-- Formalisation of the spec's `normalize_whitespace`: collapse whitespace
runs to single spaces and trim the ends. -/
def normalizeWhitespace (l : List Char) : List Char := joinSep [' '] (pySplit l)

/-- The non-whitespace character sequence of a string. -/
def nonWS (l : List Char) : List Char := l.filter (fun c => !isPyWS c)

/-! ### Font classifier: `pick_font` (subtitle_video.py)

```
def pick_font(text: str) -> str:
    for ch in text:
        name = ud.name(ch, "")
        if "HANGUL" in name:
            return FONT_KO
        if any(tag in name for tag in ("CJK", "HIRAGANA", "KATAKANA")):
            return FONT_JP
    return FONT_LATN
```
The `unicodedata.name` table is an input of the model (`nameOf`). -/

inductive FontChoice where
  | latn : FontChoice
  | jp : FontChoice
  | ko : FontChoice
deriving DecidableEq, Repr

/-- Substring test (`needle in hay`). -/
def hasSub (needle : List Char) : List Char → Bool
  | [] => needle.isEmpty
  | c :: rest => needle.isPrefixOf (c :: rest) || hasSub needle rest

def isHangulName (nameOf : Char → List Char) (c : Char) : Bool :=
  hasSub "HANGUL".toList (nameOf c)

def isCjkName (nameOf : Char → List Char) (c : Char) : Bool :=
  hasSub "CJK".toList (nameOf c) || hasSub "HIRAGANA".toList (nameOf c) ||
    hasSub "KATAKANA".toList (nameOf c)

def pickFont (nameOf : Char → List Char) : List Char → FontChoice
  | [] => .latn
  | c :: rest =>
    if isHangulName nameOf c then .ko
    else if isCjkName nameOf c then .jp
    else pickFont nameOf rest

/-- A small concrete `unicodedata.name` table for witnesses. -/
def sampleNames (c : Char) : List Char :=
  if c = '한' then "HANGUL SYLLABLE HAN".toList
  else if c = '글' then "HANGUL SYLLABLE GEUL".toList
  else if c = 'あ' then "HIRAGANA LETTER A".toList
  else if c = '漢' then "CJK UNIFIED IDEOGRAPH-6F22".toList
  else if c = 'a' then "LATIN SMALL LETTER A".toList
  else []

/-! ### Caption block layout and assembly: `build_video` (subtitle_video.py)

Rendered text sizes come from moviepy's `TextClip`; they enter the model as
inputs (a `render` function / explicit `sizes`).  Panels are `_bg`:
`ColorClip((txt.w + PAD_X*2, txt.h + PAD_Y*2))` placed at `y - PAD_Y`. -/

def SCREEN_W : ℤ := 1080
def SCREEN_H : ℤ := 1920
def POS_Y : ℤ := 920
def BOTTOM_MARGIN : ℤ := 40
def PAD_X : ℤ := 22
def PAD_Y : ℤ := 16
def SHIFT_X : ℤ := -45

/-- `xpos(w) = (SCREEN_W - w) // 2 + SHIFT_X` (Python floor division). -/
def xpos (w : ℤ) : ℤ := (SCREEN_W - w).fdiv 2 + SHIFT_X

def xposCenter (w : ℤ) : ℤ := (SCREEN_W - w).fdiv 2

/-- One composited element (a text clip or its backing panel) with its
top-left position. -/
structure Elem where
  x : ℤ
  y : ℤ
deriving DecidableEq, Repr

/-- Rows `1..` of the per-item layout loop: each row's panel and text are
placed `gap` below the running block, and `total_block_h` is recomputed
from the last element as the source does. -/
def layoutLoop (posf : ℤ → ℤ) : List (ℤ × ℤ) → List ℤ → ℤ → List Elem → ℤ →
    List Elem × ℤ
  | [], _, _, acc, t => (acc, t)
  | (w, h) :: rest, gaps, blockH, acc, _ =>
    let g := gaps.headD 0
    let y := POS_Y + blockH + g
    let bgH := h + 2 * PAD_Y
    let acc2 := acc ++ [⟨posf (w + 2 * PAD_X), y - PAD_Y⟩, ⟨posf w, y⟩]
    layoutLoop posf rest gaps.tail ((y - POS_Y) + bgH) acc2 ((y + bgH + PAD_Y) - POS_Y)

/-- The per-item layout of `build_video` before overflow correction:
element list and `total_block_h`. -/
def layoutBlock (posf : ℤ → ℤ) (sizes : List (ℤ × ℤ)) (gaps : List ℤ) :
    List Elem × ℤ :=
  match sizes with
  | [] => ([], 0)
  | (w, h) :: rest =>
    let bgH := h + 2 * PAD_Y
    let acc : List Elem := [⟨posf (w + 2 * PAD_X), POS_Y - PAD_Y⟩, ⟨posf w, POS_Y⟩]
    layoutLoop posf rest gaps bgH acc ((POS_Y + bgH + PAD_Y) - POS_Y)

/-- `overflow = POS_Y + total_block_h + BOTTOM_MARGIN - SCREEN_H`. -/
def overflowOf (t : ℤ) : ℤ := POS_Y + t + BOTTOM_MARGIN - SCREEN_H

/-- The overflow correction of `build_video`: when `overflow > 0`, shift
every element of the block up by the same amount. -/
def applyOverflow (elems : List Elem) (t : ℤ) : List Elem :=
  if 0 < overflowOf t then elems.map (fun e => ⟨e.x, e.y - overflowOf t⟩)
  else elems

/-- Full per-item layout: build the block, then apply overflow correction. -/
def layoutItem (posf : ℤ → ℤ) (sizes : List (ℤ × ℤ)) (gaps : List ℤ) :
    List Elem :=
  applyOverflow (layoutBlock posf sizes gaps).1 (layoutBlock posf sizes gaps).2

/-- `LINE_GAPS`, with the `rows == 2` override of the first gap. -/
def lineGapsFor (rows : ℕ) : List ℤ := if rows = 2 then [28, 26] else [22, 26]

/-- One slot's composited segment: its elements and its declared duration
(seconds). -/
structure Segment where
  elems : List Elem
  dur : ℚ
deriving DecidableEq, Repr

/-- The output of the assembler: the segments, the concatenated visual
duration, and the attached audio track's duration. -/
structure BuildOut where
  segs : List Segment
  videoDur : ℚ
  audioDur : ℚ
deriving DecidableEq, Repr

/-- The per-item loop of `build_video`: the two `assert`s, then the layout
and the slot composite with its declared duration. -/
def buildSegs (render : List Char → ℤ × ℤ) (rows : ℕ) :
    List (List Char × List (List Char) × ℚ) → Except String (List Segment)
  | [] => .ok []
  | item :: rest =>
    if item.2.1.length < 1 then .error "row_texts must have at least 1 entry"
    else if rows ≠ item.2.1.length then .error "rows mismatch"
    else
      match buildSegs render rows rest with
      | .error e => .error e
      | .ok segs =>
        .ok (⟨layoutItem xpos (item.2.1.map render) (lineGapsFor rows), item.2.2⟩ :: segs)

/-- `build_video`'s assembly: compose the segments, concatenate them (the
visual duration is the sum of the declared durations) and attach the audio
track unchanged.  The source performs no comparison between the two
durations. -/
def buildVideo (render : List Char → ℤ × ℤ) (rows : ℕ)
    (items : List (List Char × List (List Char) × ℚ)) (audioDur : ℚ) :
    Except String BuildOut :=
  match buildSegs render rows items with
  | .error e => .error e
  | .ok segs => .ok ⟨segs, (items.map (fun it => it.2.2)).sum, audioDur⟩

theorem segLen_eq_max (preMs minMs clipLen : ℕ) :
    segLen preMs minMs clipLen = max (preMs + clipLen) minMs := by
  simp only [segLen]
  split <;> omega

theorem concatGo_fst_length (gapMs preMs minMs n : ℕ) :
    ∀ (l : List ℕ) (idx : ℕ),
      (concatGo gapMs preMs minMs n idx l).1.length = l.length := by
  intro l
  induction l with
  | nil => intro idx; rfl
  | cons c rest ih => intro idx; simp [concatGo, ih]

theorem concatGo_fst_get? (gapMs preMs minMs n : ℕ) :
    ∀ (l : List ℕ) (idx i : ℕ),
      (concatGo gapMs preMs minMs n idx l).1.get? i =
        (l.get? i).map (fun c =>
          ((segLen preMs minMs c + (if idx + i < n - 1 then gapMs else 0) : ℕ) : ℚ) / 1000) := by
  intro l
  induction l with
  | nil => intro idx i; rfl
  | cons c rest ih =>
    intro idx i
    cases i with
    | zero => simp [concatGo]
    | succ j =>
      simp only [concatGo, List.get?]
      rw [ih (idx + 1) j]
      have : idx + 1 + j = idx + (j + 1) := by omega
      rw [this]

theorem concatGo_sum_eq_track (gapMs preMs minMs n : ℕ) :
    ∀ (l : List ℕ) (idx : ℕ),
      (concatGo gapMs preMs minMs n idx l).1.sum * 1000 =
        ((concatGo gapMs preMs minMs n idx l).2 : ℚ) := by
  intro l
  induction l with
  | nil => intro idx; simp [concatGo]
  | cons c rest ih =>
    intro idx
    simp only [concatGo, List.sum_cons]
    push_cast
    rw [add_mul, div_mul_cancel₀ _ (by norm_num : (1000 : ℚ) ≠ 0), ih (idx + 1)]

theorem concatGo_track (gapMs preMs minMs n : ℕ) :
    ∀ (l : List ℕ) (idx : ℕ), idx + l.length = n →
      (concatGo gapMs preMs minMs n idx l).2 =
        (l.map (segLen preMs minMs)).sum + (l.length - 1) * gapMs := by
  intro l
  induction l with
  | nil => intro idx _; simp [concatGo]
  | cons c rest ih =>
    intro idx hn
    simp only [concatGo, List.map_cons, List.sum_cons, List.length_cons]
    cases rest with
    | nil =>
      have hidx : ¬ idx < n - 1 := by simp at hn; omega
      simp [concatGo, hidx]
    | cons d rest' =>
      have hidx : idx < n - 1 := by simp at hn ⊢; omega
      have := ih (idx + 1) (by simp at hn ⊢; omega)
      simp only [hidx, if_pos]
      rw [this]
      simp only [List.length_cons, Nat.add_sub_cancel]
      ring

/-- Claim C1 (confirmed).  Duration conservation: for every clip list and
every parameter setting, the sum of the per-slot durations returned by
`_concat_with_gaps` (seconds, modelled exactly) equals the total duration of
the audio track it builds (milliseconds), the two being tracked as running
sums in one consistent unit: `(Σ durs) * 1000 = len(combined)`. -/
theorem c1_duration_conservation (clips : List ℕ) (gapMs preMs minMs : ℕ) :
    (concatWithGaps clips gapMs preMs minMs).1.sum * 1000 =
      ((concatWithGaps clips gapMs preMs minMs).2 : ℚ) :=
  concatGo_sum_eq_track gapMs preMs minMs clips.length clips 0

/-- Claim C2, counterexample.  For clips `[900, 1200, 700]` ms with
`leading_silence = 120`, `min_duration = 1000`, `gap = 120`, the track built
by `_concat_with_gaps` is 3580 ms long, not the 3700 ms the claim states:
the last clip is padded to 1000 ms and receives no trailing gap. -/
theorem c2_counterexample :
    (concatWithGaps [900, 1200, 700] 120 120 1000).2 = 3580 ∧
      (concatWithGaps [900, 1200, 700] 120 120 1000).2 ≠ 3700 := by
  constructor <;> decide

/-- Claim C2 as amended: same input, but the slot durations are
`[1140, 1440, 1000]` ms (returned as seconds) and the track is 3580 ms:
the third slot is the 700 ms clip plus 120 ms leading silence, padded up to
`min_duration = 1000`, with no gap after the last slot. -/
theorem c2_amended :
    (concatWithGaps [900, 1200, 700] 120 120 1000).1 =
        [(1140 : ℚ) / 1000, (1440 : ℚ) / 1000, (1000 : ℚ) / 1000] ∧
      (concatWithGaps [900, 1200, 700] 120 120 1000).2 = 3580 := by
  constructor
  · simp only [concatWithGaps, concatGo, segLen]
    norm_num
  · decide

/-- Claim C3 (confirmed).  Slot count conservation: `_concat_with_gaps`
returns exactly one slot duration per clip, slot `i` is computed from clip
`i` (1:1 alignment with the input order), every slot is at least
`min_duration_ms`, and a zero-length clip (the embedding of a missing /
fallback clip) is still padded to exactly `min_duration_ms` — its slot is
never dropped. -/
theorem c3_slot_conservation (clips : List ℕ) (gapMs preMs minMs : ℕ) :
    (concatWithGaps clips gapMs preMs minMs).1.length = clips.length ∧
    (∀ i : ℕ, (concatWithGaps clips gapMs preMs minMs).1.get? i =
        (clips.get? i).map (fun c =>
          ((segLen preMs minMs c + (if i < clips.length - 1 then gapMs else 0) : ℕ) : ℚ) / 1000)) ∧
    (∀ q ∈ (concatWithGaps clips gapMs preMs minMs).1, (minMs : ℚ) / 1000 ≤ q) ∧
    (preMs < minMs →
      ∀ i : ℕ, clips.get? i = some 0 →
        (concatWithGaps clips gapMs preMs minMs).1.get? i =
          some (((minMs + (if i < clips.length - 1 then gapMs else 0) : ℕ) : ℚ) / 1000)) := by
  refine ⟨concatGo_fst_length _ _ _ _ _ _, fun i => ?_, fun q hq => ?_, fun hpre i hi => ?_⟩
  · rw [concatWithGaps, concatGo_fst_get?]
    simp
  · obtain ⟨i, hi⟩ := List.mem_iff_get?.1 hq
    rw [concatWithGaps, concatGo_fst_get?] at hi
    simp only [Nat.zero_add] at hi
    obtain ⟨c, _, rfl⟩ := Option.map_eq_some'.1 hi
    have hseg : minMs ≤ segLen preMs minMs c := by
      rw [segLen_eq_max]; exact le_max_right _ _
    have hle : (minMs : ℚ) ≤ ((segLen preMs minMs c +
        (if i < clips.length - 1 then gapMs else 0) : ℕ) : ℚ) := by
      exact_mod_cast le_trans hseg (Nat.le_add_right _ _)
    exact (div_le_div_iff_of_pos_right (by norm_num)).2 hle
  · rw [concatWithGaps, concatGo_fst_get?]
    rw [hi]
    have h0 : segLen preMs minMs 0 = minMs := by
      simp only [segLen]
      split <;> omega
    simp [h0]

/-- Claim C3, witness at clips `[0, 2000]` (a zero-length fallback clip and a
2000 ms clip) with the default parameters. -/
theorem c3_witness :
    (concatWithGaps [0, 2000] 120 120 1000).1.get? 0 =
        some (((1000 + 120 : ℕ) : ℚ) / 1000) ∧
      ((1000 : ℕ) : ℚ) / 1000 ≤ ((1000 + 120 : ℕ) : ℚ) / 1000 := by
  have h := c3_slot_conservation [0, 2000] 120 120 1000
  have h4 := h.2.2.2 (by norm_num) 0 (by rfl)
  constructor
  · norm_num at h4 ⊢
    exact h4
  · norm_num

/-- Claim C7 (confirmed).  No gap after the last slot: slot `i` carries the
inter-utterance gap exactly when `i < n - 1`, the last slot is the padded
segment alone, and consequently the track length equals the sum of the `n`
padded segments plus `(n - 1)` gaps. -/
theorem c7_no_trailing_gap (clips : List ℕ) (gapMs preMs minMs : ℕ)
    (hne : clips ≠ []) :
    (∀ i : ℕ, i + 1 < clips.length →
        (concatWithGaps clips gapMs preMs minMs).1.get? i =
          (clips.get? i).map (fun c => ((segLen preMs minMs c + gapMs : ℕ) : ℚ) / 1000)) ∧
    (concatWithGaps clips gapMs preMs minMs).1.get? (clips.length - 1) =
        (clips.get? (clips.length - 1)).map
          (fun c => ((segLen preMs minMs c : ℕ) : ℚ) / 1000) ∧
    (concatWithGaps clips gapMs preMs minMs).2 =
        (clips.map (segLen preMs minMs)).sum + (clips.length - 1) * gapMs := by
  refine ⟨fun i hi => ?_, ?_, ?_⟩
  · rw [concatWithGaps, concatGo_fst_get?]
    simp only [Nat.zero_add, if_pos (show i < clips.length - 1 by omega)]
  · rw [concatWithGaps, concatGo_fst_get?]
    have hlen : ¬ (0 + (clips.length - 1) < clips.length - 1) := by omega
    simp only [if_neg hlen, Nat.add_zero]
  · exact concatGo_track _ _ _ _ clips 0 (by simp)

/-- Claim C7, witness at clips `[900, 1200, 700]` with the default
parameters: first slot `1020 + 120` ms, last slot `1000` ms with no gap,
track `3580` ms. -/
theorem c7_witness :
    (concatWithGaps [900, 1200, 700] 120 120 1000).1.get? 0 =
        some (((1020 + 120 : ℕ) : ℚ) / 1000) ∧
      (concatWithGaps [900, 1200, 700] 120 120 1000).1.get? 2 =
        some (((1000 : ℕ) : ℚ) / 1000) ∧
      (concatWithGaps [900, 1200, 700] 120 120 1000).2 = 3580 := by
  have h := c7_no_trailing_gap [900, 1200, 700] 120 120 1000 (by decide)
  refine ⟨?_, ?_, ?_⟩
  · have h1 := h.1 0 (by norm_num)
    norm_num [segLen] at h1 ⊢
    exact h1
  · have h2 := h.2.1
    norm_num [segLen] at h2 ⊢
    exact h2
  · rw [h.2.2]
    decide

/-! ### Losslessness infrastructure for the wrappers -/

theorem nonWS_append (a b : List Char) : nonWS (a ++ b) = nonWS a ++ nonWS b := by
  simp [nonWS, List.filter_append]

theorem nonWS_cons (c : Char) (l : List Char) :
    nonWS (c :: l) = if isPyWS c then nonWS l else c :: nonWS l := by
  by_cases h : isPyWS c <;> simp [nonWS, List.filter_cons, h]

theorem nonWS_reverse (l : List Char) : nonWS l.reverse = (nonWS l).reverse := by
  induction l with
  | nil => rfl
  | cons c rest ih =>
    by_cases h : isPyWS c <;>
      simp [List.reverse_cons, nonWS_append, nonWS_cons, h, ih, nonWS]

theorem nonWS_dropWhile (l : List Char) : nonWS (l.dropWhile isPyWS) = nonWS l := by
  induction l with
  | nil => rfl
  | cons c rest ih =>
    by_cases h : isPyWS c <;> simp [List.dropWhile_cons, h, ih, nonWS_cons]

theorem nonWS_pyStrip (l : List Char) : nonWS (pyStrip l) = nonWS l := by
  unfold pyStrip
  rw [nonWS_reverse, nonWS_dropWhile, nonWS_reverse, List.reverse_reverse]
  rw [nonWS_dropWhile]

theorem pySplitGo_flatten (l : List Char) :
    ∀ cur, (pySplitGo cur l).flatten = cur.reverse ++ nonWS l := by
  induction l with
  | nil =>
    intro cur
    cases cur <;> simp [pySplitGo, nonWS]
  | cons c rest ih =>
    intro cur
    by_cases h : isPyWS c
    · by_cases hc : cur.isEmpty
      · have : cur = [] := by cases cur <;> simp_all
        subst this
        simp [pySplitGo, h, hc, ih, nonWS_cons]
      · simp [pySplitGo, h, hc, ih, nonWS_cons]
    · simp [pySplitGo, h, ih, nonWS_cons, List.append_assoc]

theorem pySplit_flatten (l : List Char) : (pySplit l).flatten = nonWS l := by
  simpa using pySplitGo_flatten l []

theorem nonWS_joinSep (sep : List Char) (hsep : nonWS sep = []) :
    ∀ L, nonWS (joinSep sep L) = nonWS L.flatten := by
  intro L
  induction L with
  | nil => simp [joinSep, nonWS]
  | cons x rest ih =>
    cases rest with
    | nil => simp [joinSep]
    | cons y rest2 =>
      simp only [joinSep, List.flatten_cons]
      rw [nonWS_append, nonWS_append, hsep, nonWS_append]
      rw [ih]
      simp [List.flatten_cons, nonWS_append]

theorem splitKeepSepGo_flatten (l : List Char) :
    ∀ acc, (splitKeepSepGo acc l).flatten = acc.reverse ++ l := by
  induction l with
  | nil => intro acc; simp [splitKeepSepGo]
  | cons c rest ih =>
    intro acc
    by_cases h : c = '-' ∨ c = '/'
    · simp only [splitKeepSepGo, if_pos h, List.flatten_cons]
      rw [ih []]
      simp
    · simp only [splitKeepSepGo, if_neg h]
      rw [ih (c :: acc)]
      simp [List.append_assoc]

theorem sltLoop_flatten (limit : ℕ) :
    ∀ fuel merged cur p,
      (sltLoop limit fuel merged cur p).1.flatten ++ (sltLoop limit fuel merged cur p).2 =
        merged.flatten ++ (cur ++ p) := by
  intro fuel
  induction fuel with
  | zero => intro merged cur p; simp [sltLoop, List.append_assoc]
  | succ f ih =>
    intro merged cur p
    match p with
    | [] => simp [sltLoop]
    | q :: p' =>
      by_cases hf : limit ≤ cur.length
      · by_cases h2 : limit ≤ ([] ++ (q :: p').take limit).length
        · simp only [sltLoop, if_pos hf, if_pos h2]
          rw [ih]
          simp [List.flatten_append, List.append_assoc, List.take_append_drop]
        · simp only [sltLoop, if_pos hf, if_neg h2]
          rw [ih]
          simp [List.flatten_append, List.append_assoc, List.take_append_drop]
      · by_cases h2 : limit ≤ (cur ++ (q :: p').take (limit - cur.length)).length
        · simp only [sltLoop, if_neg hf, if_pos h2]
          rw [ih]
          simp [List.flatten_append, List.append_assoc, List.take_append_drop]
        · simp only [sltLoop, if_neg hf, if_neg h2]
          rw [ih]
          simp [List.flatten_append, List.append_assoc, List.take_append_drop]

theorem sltParts_flatten (limit : ℕ) :
    ∀ parts merged cur,
      (sltParts limit parts merged cur).1.flatten ++ (sltParts limit parts merged cur).2 =
        merged.flatten ++ (cur ++ parts.flatten) := by
  intro parts
  induction parts with
  | nil => intro merged cur; simp [sltParts]
  | cons p rest ih =>
    intro merged cur
    by_cases h : p = ['-'] ∨ p = ['/'] ∨ p = []
    · simp only [sltParts, if_pos h, List.flatten_cons]
      rw [ih]
      simp [List.append_assoc]
    · simp only [sltParts, if_neg h, List.flatten_cons]
      rw [ih]
      have hl := sltLoop_flatten limit (p.length + 1) merged cur p
      -- combine: pr.1.flatten ++ (pr.2 ++ rest.flatten) = merged.flatten ++ cur ++ p ++ rest.flatten
      rw [← List.append_assoc, hl]
      simp [List.append_assoc]

theorem splitLongToken_flatten (tok : List Char) (limit : ℕ) :
    (splitLongToken tok limit).flatten = tok := by
  unfold splitLongToken
  by_cases h : tok.length ≤ limit
  · simp [h]
  · simp only [if_neg h]
    have h2 := sltParts_flatten limit (splitKeepSepGo [] tok) [] []
    have h3 := splitKeepSepGo_flatten tok []
    simp only [List.reverse_nil, List.nil_append, List.flatten_nil] at h2 h3
    rw [h3] at h2
    by_cases hc : (sltParts limit (splitKeepSepGo [] tok) [] []).2.isEmpty = true
    · have hnil : (sltParts limit (splitKeepSepGo [] tok) [] []).2 = [] := by
        simpa [List.isEmpty_iff] using hc
      rw [if_pos hc]
      rw [hnil, List.append_nil] at h2
      exact h2
    · rw [if_neg hc]
      rw [List.flatten_append]
      simpa using h2

theorem nonWS_replicate_space (n : ℕ) : nonWS (List.replicate n ' ') = [] := by
  have hsp : isPyWS ' ' = true := by decide
  induction n with
  | zero => rfl
  | succ k ih => simp [List.replicate, nonWS_cons, hsp, ih]

theorem nonWS_expandTabs (s : List Char) :
    ∀ col, nonWS (expandTabs s col) = nonWS s := by
  induction s with
  | nil => intro col; rfl
  | cons c rest ih =>
    intro col
    by_cases h1 : c = '\t'
    · subst h1
      have htab : isPyWS '\t' = true := by decide
      simp [expandTabs, nonWS_append, nonWS_replicate_space, ih, nonWS_cons, htab]
    · by_cases h2 : c = '\n' ∨ c = '\r'
      · simp only [expandTabs, if_neg h1, if_pos h2]
        have hws : isPyWS c = true := by
          rcases h2 with h | h <;> subst h <;> decide
        simp [nonWS_cons, hws, ih]
      · simp only [expandTabs, if_neg h1, if_neg h2]
        by_cases hws : isPyWS c <;> simp [nonWS_cons, hws, ih]

theorem nonWS_mungeWS (s : List Char) : nonWS (mungeWS s) = nonWS s := by
  unfold mungeWS
  rw [← nonWS_expandTabs s 0]
  generalize expandTabs s 0 = l
  induction l with
  | nil => rfl
  | cons c rest ih =>
    simp only [List.map_cons]
    by_cases h : c = '\t' ∨ c = '\n' ∨ c.toNat = 11 ∨ c.toNat = 12 ∨ c = '\r' ∨ c = ' '
    · have hn : c.toNat = 9 ∨ c.toNat = 10 ∨ c.toNat = 11 ∨ c.toNat = 12 ∨
          c.toNat = 13 ∨ c.toNat = 32 := by
        rcases h with h | h | h | h | h | h
        · subst h; left; rfl
        · subst h; right; left; rfl
        · right; right; left; exact h
        · right; right; right; left; exact h
        · subst h; right; right; right; right; left; rfl
        · subst h; right; right; right; right; right; rfl
      have hws : isPyWS c = true := by
        unfold isPyWS
        apply decide_eq_true
        omega
      have hsp : isPyWS ' ' = true := by decide
      simp [if_pos h, nonWS_cons, hws, hsp, ih]
    · simp [if_neg h, nonWS_cons, ih]

theorem wordChunkGo_spec :
    ∀ fuel ctx accRev rest,
      (wordChunkGo fuel ctx accRev rest).1 ++ (wordChunkGo fuel ctx accRev rest).2 =
        accRev.reverse ++ rest := by
  intro fuel
  induction fuel with
  | zero => intro ctx accRev rest; simp [wordChunkGo]
  | succ f ih =>
    intro ctx accRev rest
    cases hw : wordEnd ctx rest
    · cases rest with
      | nil =>
        have : wordEnd ctx [] = true := by simp [wordEnd]
        rw [this] at hw
        cases hw
      | cons c rest2 =>
        simp only [wordChunkGo, hw, Bool.false_eq_true, if_false]
        rw [ih]
        simp [List.reverse_cons, List.append_assoc]
    · simp [wordChunkGo, hw]

theorem chunkSplitGo_flatten :
    ∀ fuel ctx l, (chunkSplitGo fuel ctx l).flatten = l := by
  intro fuel
  induction fuel with
  | zero =>
    intro ctx l
    cases l <;> simp [chunkSplitGo]
  | succ f ih =>
    intro ctx l
    match l with
    | [] => simp [chunkSplitGo]
    | c :: rest =>
      by_cases h1 : isPyWS c = true
      · simp only [chunkSplitGo, h1, if_true, List.flatten_cons]
        rw [ih]
        exact List.takeWhile_append_dropWhile _ _
      · cases h2 : (optIs isWordPunct (ctx.get? 0) && c == '-' && laEmDash (c :: rest))
        · simp only [chunkSplitGo, h1, Bool.false_eq_true, if_false, h2,
            List.flatten_cons]
          rw [ih]
          exact wordChunkGo_spec rest.length (pushCtx ctx [c]) [c] rest
        · simp only [chunkSplitGo, h1, Bool.false_eq_true, if_false, h2, if_true,
            List.flatten_cons]
          rw [ih]
          exact List.takeWhile_append_dropWhile _ _

theorem chunkSplit_flatten (l : List Char) : (chunkSplit l).flatten = l :=
  chunkSplitGo_flatten (l.length + 1) [] l

theorem greedyTake_spec (width : ℕ) :
    ∀ chunks curLen,
      (greedyTake width curLen chunks).1 ++ (greedyTake width curLen chunks).2 = chunks := by
  intro chunks
  induction chunks with
  | nil => intro curLen; simp [greedyTake]
  | cons ch rest ih =>
    intro curLen
    by_cases h : curLen + ch.length ≤ width
    · simp only [greedyTake, if_pos h, List.cons_append]
      rw [ih]
    · simp [greedyTake, if_neg h]

theorem handleLongWord_spec (width curLen : ℕ) (chunk : List Char) :
    (handleLongWord width curLen chunk).1 ++ (handleLongWord width curLen chunk).2 = chunk := by
  unfold handleLongWord
  exact List.take_append_drop _ _

theorem nonWS_of_isWSChunk (ch : List Char) (h : isWSChunk ch = true) :
    nonWS ch = [] := by
  induction ch with
  | nil => rfl
  | cons c rest ih =>
    simp only [isWSChunk, List.all_cons, Bool.and_eq_true] at h
    have := ih (by simp [isWSChunk, h.2])
    simp [nonWS_cons, h.1, this]

theorem flatten_eq_dropLast_append (L : List (List Char)) (lc : List Char)
    (h : L.getLast? = some lc) : L.flatten = L.dropLast.flatten ++ lc := by
  induction L with
  | nil => cases h
  | cons x rest ih =>
    cases rest with
    | nil =>
      simp only [List.getLast?_singleton, Option.some.injEq] at h
      subst h
      simp
    | cons y rest2 =>
      have h2 : (y :: rest2).getLast? = some lc := by
        rwa [List.getLast?_cons_cons] at h
      have hd : (x :: y :: rest2).dropLast = x :: (y :: rest2).dropLast := rfl
      rw [List.flatten_cons, ih h2, hd, List.flatten_cons, List.append_assoc]

theorem wrapBody_nonWS (f width : ℕ) (first : Bool)
    (ih : ∀ (b : Bool) (ch : List (List Char)),
      nonWS (wrapChunksGo f b width ch).flatten = nonWS ch.flatten)
    (c1 : List (List Char)) :
    nonWS
      ((let pr := greedyTake width 0 c1
        let pr2 : List (List Char) × List (List Char) :=
          match pr.2 with
          | [] => (pr.1, [])
          | ch :: rt =>
            if width < ch.length then
              let hw := handleLongWord width (sumLen pr.1) ch
              (pr.1 ++ [hw.1], hw.2 :: rt)
            else (pr.1, ch :: rt)
        let curLine :=
          match pr2.1.getLast? with
          | some lc => if isWSChunk lc then pr2.1.dropLast else pr2.1
          | none => pr2.1
        if curLine.isEmpty then wrapChunksGo f first width pr2.2
        else curLine.flatten :: wrapChunksGo f false width pr2.2 : List (List Char))).flatten
      = nonWS c1.flatten := by
  have hg := greedyTake_spec width c1 0
  -- name the three intermediate values of one loop iteration
  set pr := greedyTake width 0 c1 with hpr
  set pr2 : List (List Char) × List (List Char) :=
    (match pr.2 with
     | [] => (pr.1, [])
     | ch :: rt =>
       if width < ch.length then
         let hw := handleLongWord width (sumLen pr.1) ch
         (pr.1 ++ [hw.1], hw.2 :: rt)
       else (pr.1, ch :: rt)) with hpr2
  set curLine : List (List Char) :=
    (match pr2.1.getLast? with
     | some lc => if isWSChunk lc then pr2.1.dropLast else pr2.1
     | none => pr2.1) with hcl
  have hsplit : nonWS pr2.1.flatten ++ nonWS pr2.2.flatten = nonWS c1.flatten := by
    rcases hp2 : pr.2 with _ | ⟨ch, rt⟩
    · rw [hpr2]
      simp only [hp2]
      rw [← nonWS_append, ← List.flatten_append]
      rw [← hp2, hg]
    · rw [hpr2]
      simp only [hp2]
      by_cases hl : width < ch.length
      · have hh := handleLongWord_spec width (sumLen pr.1) ch
        simp only [if_pos hl]
        rw [← nonWS_append, ← List.flatten_append]
        have : (pr.1 ++ [(handleLongWord width (sumLen pr.1) ch).1]) ++
            ((handleLongWord width (sumLen pr.1) ch).2 :: rt) =
            pr.1 ++ ((handleLongWord width (sumLen pr.1) ch).1 ::
              (handleLongWord width (sumLen pr.1) ch).2 :: rt) := by
          simp [List.append_assoc]
        rw [this]
        have hfl : (pr.1 ++ ((handleLongWord width (sumLen pr.1) ch).1 ::
            (handleLongWord width (sumLen pr.1) ch).2 :: rt)).flatten =
            (pr.1 ++ ch :: rt).flatten := by
          simp only [List.flatten_append, List.flatten_cons]
          rw [← List.append_assoc _ _ rt.flatten, hh]
        rw [hfl, ← hp2, hg]
      · simp only [if_neg hl]
        rw [← nonWS_append, ← List.flatten_append, ← hp2, hg]
  have hline : nonWS curLine.flatten = nonWS pr2.1.flatten := by
    rcases hlast : pr2.1.getLast? with _ | lc
    · rw [hcl]; simp only [hlast]
    · rw [hcl]
      simp only [hlast]
      by_cases hws : isWSChunk lc = true
      · simp only [hws, if_true]
        rw [flatten_eq_dropLast_append pr2.1 lc hlast, nonWS_append,
          nonWS_of_isWSChunk lc hws]
        simp
      · simp only [hws, Bool.false_eq_true, if_false]
  by_cases hemp : curLine.isEmpty = true
  · have : curLine = [] := by simpa [List.isEmpty_iff] using hemp
    rw [if_pos hemp, ih first pr2.2, ← hsplit, ← hline, this]
    simp [nonWS]
  · rw [if_neg hemp]
    simp only [List.flatten_cons]
    rw [nonWS_append, ih false pr2.2, hline, hsplit]

theorem wrapChunksGo_nonWS :
    ∀ fuel (first : Bool) (width : ℕ) chunks,
      nonWS (wrapChunksGo fuel first width chunks).flatten = nonWS chunks.flatten := by
  intro fuel
  induction fuel with
  | zero =>
    intro first width chunks
    cases chunks <;> simp [wrapChunksGo]
  | succ f ih =>
    intro first width chunks
    match chunks with
    | [] => simp [wrapChunksGo]
    | ch0 :: rest0 =>
      show nonWS (wrapChunksGo (f + 1) first width (ch0 :: rest0)).flatten = _
      cases hd : (!first && isWSChunk ch0)
      · -- no head drop: the body runs on ch0 :: rest0
        have : wrapChunksGo (f + 1) first width (ch0 :: rest0) =
            (let pr := greedyTake width 0 (ch0 :: rest0)
             let pr2 : List (List Char) × List (List Char) :=
               match pr.2 with
               | [] => (pr.1, [])
               | ch :: rt =>
                 if width < ch.length then
                   let hw := handleLongWord width (sumLen pr.1) ch
                   (pr.1 ++ [hw.1], hw.2 :: rt)
                 else (pr.1, ch :: rt)
             let curLine :=
               match pr2.1.getLast? with
               | some lc => if isWSChunk lc then pr2.1.dropLast else pr2.1
               | none => pr2.1
             if curLine.isEmpty then wrapChunksGo f first width pr2.2
             else curLine.flatten :: wrapChunksGo f false width pr2.2) := by
          simp only [wrapChunksGo, hd, Bool.false_eq_true, if_false]
        rw [this]
        exact wrapBody_nonWS f width first (fun b ch => ih b width ch) (ch0 :: rest0)
      · -- ch0 is a dropped whitespace chunk
        have hws : isWSChunk ch0 = true := by
          have h2 := hd
          simp only [Bool.and_eq_true] at h2
          exact h2.2
        have h0 : nonWS ch0 = [] := nonWS_of_isWSChunk ch0 hws
        have hrhs : nonWS (ch0 :: rest0).flatten = nonWS rest0.flatten := by
          simp [List.flatten_cons, nonWS_append, h0]
        rw [hrhs]
        cases rest0 with
        | nil =>
          have : wrapChunksGo (f + 1) first width (ch0 :: []) = [] := by
            simp only [wrapChunksGo, hd, if_true]
          rw [this]
        | cons x xs =>
          have : wrapChunksGo (f + 1) first width (ch0 :: x :: xs) =
              (let pr := greedyTake width 0 (x :: xs)
               let pr2 : List (List Char) × List (List Char) :=
                 match pr.2 with
                 | [] => (pr.1, [])
                 | ch :: rt =>
                   if width < ch.length then
                     let hw := handleLongWord width (sumLen pr.1) ch
                     (pr.1 ++ [hw.1], hw.2 :: rt)
                   else (pr.1, ch :: rt)
               let curLine :=
                 match pr2.1.getLast? with
                 | some lc => if isWSChunk lc then pr2.1.dropLast else pr2.1
                 | none => pr2.1
               if curLine.isEmpty then wrapChunksGo f first width pr2.2
               else curLine.flatten :: wrapChunksGo f false width pr2.2) := by
            simp only [wrapChunksGo, hd, if_true]
          rw [this]
          exact wrapBody_nonWS f width first (fun b ch => ih b width ch) (x :: xs)

theorem nonWS_idem (l : List Char) : nonWS (nonWS l) = nonWS l := by
  induction l with
  | nil => rfl
  | cons c rest ih =>
    by_cases h : isPyWS c <;> simp [nonWS_cons, h, ih]

theorem nonWS_pyWrapText (width : ℕ) (s : List Char) :
    nonWS (pyWrapText width s).flatten = nonWS s := by
  unfold pyWrapText
  rw [wrapChunksGo_nonWS, chunkSplit_flatten, nonWS_mungeWS]

theorem nonWS_pyFill (s : List Char) (width : ℕ) :
    nonWS (pyFill s width) = nonWS s := by
  unfold pyFill
  rw [nonWS_joinSep ['\n'] (by decide), nonWS_pyWrapText]

theorem nonWS_wrapAsciiHard (text : List Char) (cols : ℕ) :
    nonWS (wrapAsciiHard text cols) = nonWS text := by
  unfold wrapAsciiHard
  rw [nonWS_pyFill, nonWS_joinSep [' '] (by decide)]
  have hfix : ∀ toks : List (List Char),
      ((toks.map (fun t =>
        if cols < t.length && isVisibleAscii t then splitLongToken t cols
        else [t])).flatten).flatten = toks.flatten := by
    intro toks
    induction toks with
    | nil => rfl
    | cons t ts ih =>
      simp only [List.map_cons, List.flatten_cons, List.flatten_append]
      rw [ih]
      by_cases h : (cols < t.length && isVisibleAscii t) = true
      · rw [if_pos h, splitLongToken_flatten]
      · rw [if_neg h]
        simp
  rw [hfix, pySplit_flatten, nonWS_idem]

theorem nonWS_wrapCjk (text : List Char) (width : ℕ) :
    nonWS (wrapCjk text width) = nonWS text := by
  unfold wrapCjk
  by_cases h : hasCjkRegex text = true
  · rw [if_pos h, nonWS_joinSep ['\n'] (by decide), nonWS_pyWrapText]
  · rw [if_neg h]

/-- Claim C5, counterexample.  Wrap losslessness fails as stated: for the
row `"aaaaaaaaaaaaaaaaaaaa bbbbbbbbbbbbbbbbbbbb"` (top row, font size 50)
the wrapper replaces the inter-word space by a line break, so concatenating
the wrapped lines with the breaks discarded and normalizing whitespace
yields the two words glued together, not the original text. -/
theorem c5_counterexample :
    normalizeWhitespace (stripLinebreaks
        (prepLine "aaaaaaaaaaaaaaaaaaaa bbbbbbbbbbbbbbbbbbbb".toList 50 16)) ≠
      normalizeWhitespace "aaaaaaaaaaaaaaaaaaaa bbbbbbbbbbbbbbbbbbbb".toList := by
  decide

/-- Claim C5 as amended: the wrapper never drops or duplicates a
non-whitespace character — the non-whitespace character sequence of
`_prep_line`'s output equals that of its input, for every text and every
font-size / CJK-width parameter.  (The full round-trip of the original
claim fails because an inserted break can replace an inter-word space, and
a hard split can break inside a token.) -/
theorem c5_amended (text : List Char) (fontSize cjkWidth : ℕ) :
    nonWS (prepLine text fontSize cjkWidth) = nonWS text := by
  unfold prepLine
  by_cases h1 : (pyStrip text).isEmpty = true
  · rw [if_pos h1, nonWS_pyStrip]
  · rw [if_neg h1]
    by_cases h2 : hasCjkRegex (pyStrip text) = true
    · rw [if_pos h2, nonWS_wrapCjk, nonWS_pyStrip]
    · rw [if_neg h2, nonWS_wrapAsciiHard, nonWS_pyStrip]

/-- Claim C8, counterexample.  For the token
`"internationalization-readiness-checklist"` with column budget 12 the
splitter does not break at the internal hyphen boundaries first: the actual
lines are `internationa | lization-rea | diness-check | list` — packed
greedily to the column boundary — and no line break falls immediately after
a hyphen (no non-final line ends with `'-'`), even though hyphen boundaries
were available inside the budget. -/
theorem c8_counterexample :
    linesOf (wrapAsciiHard "internationalization-readiness-checklist".toList 12) =
        ["internationa".toList, "lization-rea".toList, "diness-check".toList,
          "list".toList] ∧
      (linesOf (wrapAsciiHard "internationalization-readiness-checklist".toList 12)).dropLast.all
        (fun l => !(l.getLast? == some '-')) = true := by
  constructor
  · decide
  · decide

/-- Claim C8 as amended: the over-budget token is hard-split greedily at
the column boundary (hyphens are carried along but not preferred as break
points); every output line has at most 12 characters and no character is
lost — concatenating the lines reproduces the token exactly. -/
theorem c8_amended :
    (linesOf (wrapAsciiHard "internationalization-readiness-checklist".toList 12)).all
        (fun l => decide (l.length ≤ 12)) = true ∧
      (linesOf (wrapAsciiHard "internationalization-readiness-checklist".toList 12)).flatten =
        "internationalization-readiness-checklist".toList := by
  constructor
  · decide
  · decide

/-! ### Font classification and the Hangul wrap path -/

theorem pickFont_skip (nameOf : Char → List Char) :
    ∀ (l rest : List Char),
      (∀ d ∈ l, isHangulName nameOf d = false ∧ isCjkName nameOf d = false) →
      pickFont nameOf (l ++ rest) = pickFont nameOf rest := by
  intro l
  induction l with
  | nil => intro rest _; rfl
  | cons c l2 ih =>
    intro rest h
    have hc := h c (by simp)
    simp only [List.cons_append, pickFont, hc.1, hc.2, Bool.false_eq_true, if_false]
    exact ih rest (fun d hd => h d (by simp [hd]))

/-- Claim C9 (confirmed).  `pick_font` scans the code points left to right
and the first matching family wins: if no code point's Unicode name matches
Hangul or the CJK/kana tags the Latin font is returned; if the first
matching code point matches Hangul the Korean font is returned; if it
matches only the CJK/kana tags the CJK font is returned.  `nameOf` is the
`unicodedata.name` table. -/
theorem c9_first_match (nameOf : Char → List Char) :
    (∀ text : List Char,
        (∀ d ∈ text, isHangulName nameOf d = false ∧ isCjkName nameOf d = false) →
        pickFont nameOf text = FontChoice.latn) ∧
    (∀ (l : List Char) (c : Char) (suf : List Char),
        (∀ d ∈ l, isHangulName nameOf d = false ∧ isCjkName nameOf d = false) →
        isHangulName nameOf c = true →
        pickFont nameOf (l ++ c :: suf) = FontChoice.ko) ∧
    (∀ (l : List Char) (c : Char) (suf : List Char),
        (∀ d ∈ l, isHangulName nameOf d = false ∧ isCjkName nameOf d = false) →
        isHangulName nameOf c = false → isCjkName nameOf c = true →
        pickFont nameOf (l ++ c :: suf) = FontChoice.jp) := by
  refine ⟨?_, ?_, ?_⟩
  · intro text h
    have := pickFont_skip nameOf text [] h
    simpa using this
  · intro l c suf h hc
    rw [pickFont_skip nameOf l (c :: suf) h]
    simp [pickFont, hc]
  · intro l c suf h hc1 hc2
    rw [pickFont_skip nameOf l (c :: suf) h]
    simp [pickFont, hc1, hc2]

/-- Claim C9, witness: with the sample name table, `"a한あ"` is classified
by its first script-matching code point `'한'` — Korean font. -/
theorem c9_witness : pickFont sampleNames ['a', '한', 'あ'] = FontChoice.ko :=
  (c9_first_match sampleNames).2.1 ['a'] '한' ['あ'] (by decide) (by decide)

/-- Claim C10 (confirmed).  A non-empty Hangul-only row is not matched by
the wrappers' kana/han test, so `_prep_line` sends it down the Latin
word-wrap path with the pixel-derived column budget — even though
`pick_font` assigns it the Korean font (its code points' Unicode names
contain HANGUL). -/
theorem c10_hangul_latin_path (nameOf : Char → List Char) (t : List Char)
    (fontSize cjkWidth : ℕ) (hne : t ≠ [])
    (hall : ∀ c ∈ t, isHangulCp c = true)
    (hname : ∀ c ∈ t, isHangulName nameOf c = true) :
    hasCjkRegex t = false ∧
      prepLine t fontSize cjkWidth = wrapAsciiHard t (approxCols fontSize) ∧
      pickFont nameOf t = FontChoice.ko := by
  have hnws : ∀ c ∈ t, isPyWS c = false := by
    intro c hc
    have h := hall c hc
    simp only [isHangulCp, decide_eq_true_eq] at h
    simp only [isPyWS, decide_eq_false_iff_not]
    omega
  have hcjk : hasCjkRegex t = false := by
    simp only [hasCjkRegex, List.any_eq_false]
    intro c hc
    have h := hall c hc
    simp only [isHangulCp, decide_eq_true_eq] at h
    simp only [isCjkRegexChar, decide_eq_true_eq, decide_eq_false_iff_not]
    omega
  have hdrop : ∀ l : List Char, (∀ c ∈ l, isPyWS c = false) →
      l.dropWhile isPyWS = l := by
    intro l hl
    cases l with
    | nil => rfl
    | cons c rest => simp [List.dropWhile_cons, hl c (by simp)]
  have hstrip : pyStrip t = t := by
    unfold pyStrip
    rw [hdrop t hnws, hdrop t.reverse (fun c hc => hnws c (List.mem_reverse.mp hc)),
      List.reverse_reverse]
  refine ⟨hcjk, ?_, ?_⟩
  · unfold prepLine
    rw [hstrip]
    have hemp : t.isEmpty = false := by
      cases t with
      | nil => exact absurd rfl hne
      | cons c rest => rfl
    rw [if_neg (by simp [hemp]), if_neg (by simp [hcjk])]
  · cases t with
    | nil => exact absurd rfl hne
    | cons c rest =>
      have := hname c (by simp)
      simp [pickFont, this]

/-- Claim C10, witness: the Hangul-only row `"한글"` with the top-row font
size 50 — no kana/han match, Latin wrap path, Korean font. -/
theorem c10_witness :
    hasCjkRegex ['한', '글'] = false ∧
      prepLine ['한', '글'] 50 16 = wrapAsciiHard ['한', '글'] (approxCols 50) ∧
      pickFont sampleNames ['한', '글'] = FontChoice.ko :=
  c10_hangul_latin_path sampleNames ['한', '글'] 50 16 (by decide) (by decide)
    (by decide)

/-! ### Overflow correction and assembly -/

/-- Claim C6 (confirmed).  Overflow correction is block-wide: whenever the
laid-out block's bottom would exceed the frame height minus the bottom
margin (`overflow > 0`), every element of the block — every row's text clip
and backing panel — is translated upward by exactly the overflow amount;
horizontal positions are unchanged and the pairwise vertical spacing of the
elements is preserved. -/
theorem c6_blockwide_overflow (posf : ℤ → ℤ) (sizes : List (ℤ × ℤ))
    (gaps : List ℤ)
    (hov : 0 < overflowOf (layoutBlock posf sizes gaps).2) :
    (layoutItem posf sizes gaps).length = (layoutBlock posf sizes gaps).1.length ∧
    (∀ i : ℕ,
      (layoutItem posf sizes gaps).get? i =
        ((layoutBlock posf sizes gaps).1.get? i).map
          (fun e => ⟨e.x, e.y - overflowOf (layoutBlock posf sizes gaps).2⟩)) ∧
    (∀ i j : ℕ, ∀ ei ej ei2 ej2 : Elem,
      (layoutBlock posf sizes gaps).1.get? i = some ei →
      (layoutBlock posf sizes gaps).1.get? j = some ej →
      (layoutItem posf sizes gaps).get? i = some ei2 →
      (layoutItem posf sizes gaps).get? j = some ej2 →
      ei2.x = ei.x ∧ ej2.x = ej.x ∧ ei2.y - ej2.y = ei.y - ej.y) := by
  have hmap : layoutItem posf sizes gaps =
      (layoutBlock posf sizes gaps).1.map
        (fun e => ⟨e.x, e.y - overflowOf (layoutBlock posf sizes gaps).2⟩) := by
    unfold layoutItem applyOverflow
    rw [if_pos hov]
  refine ⟨?_, ?_, ?_⟩
  · rw [hmap]; simp
  · intro i
    rw [hmap]
    simp [List.get?_map]
  · intro i j ei ej ei2 ej2 hi hj hi2 hj2
    rw [hmap, List.get?_map, hi] at hi2
    rw [hmap, List.get?_map, hj] at hj2
    simp only [Option.map_some', Option.some.injEq] at hi2 hj2
    subst hi2
    subst hj2
    refine ⟨rfl, rfl, by ring⟩

/-- Claim C6, witness: a 3-row block (row heights 300, 300, 340) whose
bottom sits 140 px past the safe area; the first element moves from
`y = 904` to `y = 904 - 140`, shifted by exactly the overflow. -/
theorem c6_witness :
    overflowOf (layoutBlock xpos [(500, 300), (500, 300), (500, 340)]
        (lineGapsFor 3)).2 = 140 ∧
      (layoutItem xpos [(500, 300), (500, 300), (500, 340)]
          (lineGapsFor 3)).get? 0 = some ⟨223, 904 - 140⟩ ∧
      (layoutItem xpos [(500, 300), (500, 300), (500, 340)]
          (lineGapsFor 3)).get? 2 = some ⟨223, 1258 - 140⟩ ∧
      (layoutItem xpos [(500, 300), (500, 300), (500, 340)]
          (lineGapsFor 3)).get? 4 = some ⟨223, 1616 - 140⟩ := by
  have h := (c6_blockwide_overflow xpos [(500, 300), (500, 300), (500, 340)]
    (lineGapsFor 3) (by decide)).2.1
  refine ⟨by decide, ?_, ?_, ?_⟩
  · rw [h 0]; decide
  · rw [h 2]; decide
  · rw [h 4]; decide

theorem buildSegs_ok (render : List Char → ℤ × ℤ) (rows : ℕ) :
    ∀ items : List (List Char × List (List Char) × ℚ),
      (∀ it ∈ items, 1 ≤ it.2.1.length ∧ rows = it.2.1.length) →
      ∃ segs, buildSegs render rows items = Except.ok segs := by
  intro items
  induction items with
  | nil => intro _; exact ⟨[], rfl⟩
  | cons item rest ih =>
    intro h
    have h1 := h item (by simp)
    obtain ⟨segs, hs⟩ := ih (fun it hit => h it (by simp [hit]))
    refine ⟨⟨layoutItem xpos (item.2.1.map render) (lineGapsFor rows),
      item.2.2⟩ :: segs, ?_⟩
    simp only [buildSegs]
    rw [if_neg (by omega : ¬ item.2.1.length < 1),
      if_neg (by omega : ¬ rows ≠ item.2.1.length), hs]

/-- Claim C4, counterexample.  The assembler performs no comparison between
the concatenated visual duration and the audio duration: for a single
1-second slot muxed against a 5-second audio track — a mismatch of 4 s,
far beyond one 1/30 s frame interval — `build_video` succeeds and reports
no invariant violation (it aborts only on the row-count assertions). -/
theorem c4_counterexample :
    (buildVideo (fun _ => (100, 50)) 2 [(['N'], [['h', 'i'], ['y', 'o']], 1)]
        5).toOption.map (fun out => (out.videoDur, out.audioDur)) =
      some (1, 5) ∧
    (1 : ℚ) / 30 < 5 - 1 := by
  constructor
  · simp only [buildVideo, buildSegs]
    norm_num
    exact ⟨_, rfl, rfl, rfl⟩
  · norm_num

/-- Claim C4 as amended: `build_video` performs no audio/visual duration
check at all.  For every input whose rows satisfy the two assertions it
succeeds unconditionally — whatever the audio duration — propagating the
concatenated visual duration (the sum of the declared slot durations) and
the attached audio duration unchanged; it never aborts on a mismatch and
reports no slot index. -/
theorem c4_amended (render : List Char → ℤ × ℤ) (rows : ℕ)
    (items : List (List Char × List (List Char) × ℚ)) (audioDur : ℚ)
    (hrows : ∀ it ∈ items, 1 ≤ it.2.1.length ∧ rows = it.2.1.length) :
    ∃ out : BuildOut,
      buildVideo render rows items audioDur = Except.ok out ∧
      out.videoDur = (items.map (fun it => it.2.2)).sum ∧
      out.audioDur = audioDur := by
  obtain ⟨segs, hs⟩ := buildSegs_ok render rows items hrows
  refine ⟨⟨segs, (items.map (fun it => it.2.2)).sum, audioDur⟩, ?_, rfl, rfl⟩
  simp [buildVideo, hs]

/-- Claim C4 (amended), witness: one 2-row slot of 2 s against a 7 s audio
track — assembly succeeds with both durations passed through unchanged. -/
theorem c4_amended_witness :
    ∃ out : BuildOut,
      buildVideo (fun _ => (10, 10)) 2 [(['N'], [['a'], ['b']], 2)] 7 =
          Except.ok out ∧
        out.videoDur = ([(['N'], [['a'], ['b']], (2 : ℚ))].map
          (fun it => it.2.2)).sum ∧
        out.audioDur = 7 :=
  c4_amended (fun _ => (10, 10)) 2 [(['N'], [['a'], ['b']], 2)] 7 (by decide)

end AutoShort
